import Mathlib

/-!
Shallow embedding of the `fsa-chunk-store` chunked storage engine
(`FSAChunkStore` in the repository's index module).

Bytes are modelled as `List Nat`.  File-system effects are modelled by
explicit state: the per-chunk cache is an association list from chunk
index to the cache file's bytes, each logical file's committed bytes and
its read snapshot are tracked per file index, and the presence of the
store's named container and of the throwaway `chunks/<name>` cache
directory are booleans.  All operations are pure state transformers
mirroring the source line by line.
-/

/-- Byte strings: the contents of buffers, chunk cache files and logical
files. -/
abbrev Bytes := List Nat

deriving instance DecidableEq for Except

/-- Every distinct error thrown by the source (`new Error(...)` messages),
plus the construction-time errors. -/
inductive Err where
  | chunkLengthRequired
  | fsaUnsupported
  | filePathMissing
  | fileLengthMissing
  | lengthOptionMismatch
  | storageClosed
  | lastChunkLenMismatch
  | chunkLenMismatch
  | noFilesMatching
  | invalidRange
  | indexNotFound
  deriving Repr, DecidableEq

/-- A raw `files` option entry as passed to the constructor:
`{ path, length, offset? }`, where a missing `path` or `length` is
`none`. -/
structure FileIn where
  path : Option String
  flen : Option Nat
  foffset : Option Nat
  deriving Repr, DecidableEq

/-- A logical file after constructor validation and offset resolution. -/
structure FileRes where
  fpath : String
  flen : Nat
  foff : Nat
  deriving Repr, DecidableEq

/-- One `chunkMap` entry `{ from, to, offset, file }` of the source; the
file is referred to by its index in the file list. -/
structure ChunkMapEntry where
  efrom : Nat
  eto : Nat
  eoffset : Nat
  efile : Nat
  deriving Repr, DecidableEq

/-- Options object accepted by `get`: `{ offset?, length? }`.  JavaScript
numbers that can be negative are modelled as `Int`. -/
structure GetOpts where
  goffset : Option Int
  glength : Option Int
  deriving Repr, DecidableEq

/-- Constructor options `{ rootDir?, length?, files? }`; `rootDir` is
modelled by whether one was supplied. -/
structure StoreOpts where
  rootDir : Bool
  olength : Option Nat
  ofiles : Option (List FileIn)
  deriving Repr, DecidableEq

/-- The `Blob.slice(start, end)` operation of the File API: negative
indices count from the end, both bounds are clamped to the size, and an
inverted range yields the empty blob.  `Uint8Array.slice` restricted to
the arguments the source produces agrees with this. -/
def blobSlice (b : Bytes) (start stop : Int) : Bytes :=
  let size : Int := b.length
  let relStart : Int := if start < 0 then max (size + start) 0 else min start size
  let relStop : Int := if stop < 0 then max (size + stop) 0 else min stop size
  let span : Int := max (relStop - relStart) 0
  (b.drop relStart.toNat).take span.toNat

/-- Positioned write of a `FileSystemWritableFileStream` opened with
`keepExistingData: true`: bytes before `pos` are kept (zero-filling any
gap past the current end) and `data` overwrites the range starting at
`pos`. -/
def writeAt (content : Bytes) (pos : Nat) (data : Bytes) : Bytes :=
  content.take pos ++ List.replicate (pos - content.length) 0 ++ data
    ++ content.drop (pos + data.length)

/-- The loop body of the constructor's per-file `chunkMap` build: the
entries contributed by the file occupying `[a, a + l)` with list index
`j`, one per chunk index from `floor(a / L)` to `floor((a + l - 1) / L)`,
with the source's conditional expressions for `from`, `to` and
`offset`. -/
def mkEntryFor (L j a l c : Nat) : ChunkMapEntry :=
  { efrom := if a < c * L then 0 else a - c * L
    eto := if a + l > c * L + L then L else a + l - c * L
    eoffset := if a > c * L then 0 else c * L - a
    efile := j }

def fileEntries (L j a l : Nat) : List (Nat × ChunkMapEntry) :=
  (List.range' (a / L) ((a + l - 1) / L + 1 - a / L)).map fun c =>
    (c, mkEntryFor L j a l c)

/-- Concatenation of all files' `chunkMap` entries, in file-list order,
with `j` the list index of the first file. -/
def buildChunkMapAux (L : Nat) : Nat → List FileRes → List (Nat × ChunkMapEntry)
  | _, [] => []
  | j, f :: rest => fileEntries L j f.foff f.flen ++ buildChunkMapAux L (j + 1) rest

/-- The flattened `chunkMap` table built by the constructor. -/
def buildChunkMap (L : Nat) (fs : List FileRes) : List (Nat × ChunkMapEntry) :=
  buildChunkMapAux L 0 fs

/-- The entry list `chunkMap[c]`; the source's `undefined` corresponds to
the empty list. -/
def chunkEntries (m : List (Nat × ChunkMapEntry)) (c : Nat) : List ChunkMapEntry :=
  (m.filter fun p => decide (p.1 = c)).map (·.2)

/-- Constructor validation and offset resolution of the `files` option:
`path` is checked, then `length`, and a missing `offset` defaults to the
previous file's `offset + length` (`prevEnd`, 0 for the first file). -/
def resolveFiles : Nat → List FileIn → Except Err (List FileRes)
  | _, [] => .ok []
  | prevEnd, f :: rest =>
    match f.path with
    | none => .error .filePathMissing
    | some p =>
      match f.flen with
      | none => .error .fileLengthMissing
      | some l =>
        let ofs := f.foffset.getD prevEnd
        match resolveFiles (ofs + l) rest with
        | .error e => .error e
        | .ok rs => .ok (⟨p, l, ofs⟩ :: rs)

/-- State of one `FSAChunkStore` instance together with the parts of the
file system it owns. -/
structure FSAChunkStore where
  chunkLength : Nat
  totalLength : Option Nat
  lastChunkLength : Option Nat
  lastChunkIndex : Option Int
  files : Option (List FileRes)
  chunkMap : List (Nat × ChunkMapEntry)
  chunks : List (Nat × Bytes)
  fileData : List Bytes
  fileBlobs : List Bytes
  closing : Bool
  closed : Bool
  storageDirPresent : Bool
  cacheDirPresent : Bool
  deriving Repr, DecidableEq

/-- The constructor `new FSAChunkStore(chunkLength, opts)`.  A missing or
non-numeric chunk length is `none`; `Number(chunkLength)` being falsy
(0) is rejected.  The file-handling branch runs only when both `files`
and `rootDir` are supplied; otherwise `length` comes from the option
(`Number(opts.length) || Infinity`, so 0 means unbounded). -/
def mkStore (chunkLen : Option Nat) (opts : StoreOpts) : Except Err FSAChunkStore :=
  match chunkLen with
  | none => .error .chunkLengthRequired
  | some L =>
    if L = 0 then .error .chunkLengthRequired
    else
      match opts.ofiles, opts.rootDir with
      | some fl, true =>
        match resolveFiles 0 fl with
        | .error e => .error e
        | .ok fs =>
          let T := (fs.map (·.flen)).sum
          if opts.olength ≠ none ∧ opts.olength ≠ some T then
            .error .lengthOptionMismatch
          else
            .ok { chunkLength := L
                  totalLength := some T
                  lastChunkLength := some (if T % L = 0 then L else T % L)
                  lastChunkIndex := some (((T : Int) + L - 1) / L - 1)
                  files := some fs
                  chunkMap := buildChunkMap L fs
                  chunks := []
                  fileData := List.replicate fs.length []
                  fileBlobs := List.replicate fs.length []
                  closing := false
                  closed := false
                  storageDirPresent := true
                  cacheDirPresent := true }
      | _, _ =>
        let TL : Option Nat :=
          match opts.olength with
          | some t => if t = 0 then none else some t
          | none => none
        .ok { chunkLength := L
              totalLength := TL
              lastChunkLength := TL.map fun T => if T % L = 0 then L else T % L
              lastChunkIndex := TL.map fun T => ((T : Int) + L - 1) / L - 1
              files := none
              chunkMap := []
              chunks := []
              fileData := []
              fileBlobs := []
              closing := false
              closed := false
              storageDirPresent := true
              cacheDirPresent := false }

/-- JavaScript truthiness of the `length` option in `opts.length ? a : b`:
an absent value and 0 are falsy. -/
def jsLenTruthy : Option Int → Bool
  | some l => decide (l ≠ 0)
  | none => false

namespace FSAChunkStore

/-- Lookup of the cached chunk file for an index (`this.chunks[index]`
together with that file's bytes). -/
def lookupChunk (s : FSAChunkStore) (i : Nat) : Option Bytes :=
  (s.chunks.find? fun p => decide (p.1 = i)).map (·.2)

/-- Sequential application of `put`'s per-file stream writes: each target
entry writes `buf.slice(from, to)` at position `offset` into its file. -/
def writeTargets (buf : Bytes) : List Bytes → List ChunkMapEntry → List Bytes
  | fd, [] => fd
  | fd, e :: rest =>
    writeTargets buf
      (fd.set e.efile (writeAt (fd.getD e.efile []) e.eoffset
        ((buf.drop e.efrom).take (e.eto - e.efrom)))) rest

/-- The `_put(index, buf)` method: closed check, chunk-length check, the
per-chunk cache write (a full overwrite), and, when files are configured,
the per-file writes for every `chunkMap[index]` entry.  The cache write
is issued before the no-matching-files check, so it survives that
error. -/
def putFn (s : FSAChunkStore) (index : Nat) (buf : Bytes) :
    Except Err Unit × FSAChunkStore :=
  if s.closed then (.error .storageClosed, s)
  else
    let isLast := s.lastChunkIndex = some (index : Int)
    if isLast ∧ some buf.length ≠ s.lastChunkLength then
      (.error .lastChunkLenMismatch, s)
    else if ¬ isLast ∧ buf.length ≠ s.chunkLength then
      (.error .chunkLenMismatch, s)
    else
      let s1 := { s with chunks := (index, buf) :: s.chunks }
      match s.files with
      | none => (.ok (), s1)
      | some _ =>
        let targets := chunkEntries s.chunkMap index
        if targets = [] then (.error .noFilesMatching, s1)
        else (.ok (), { s1 with fileData := writeTargets buf s1.fileData targets })

/-- The `_get(index, opts)` method: closed check, effective chunk length,
range computation with JavaScript truthiness (`opts.length ? ... : ...`),
range validation, the empty-range early return, the cache read path
(which creates the cache file when absent), and the file-reconstruction
path with overlap filtering and clipping. -/
def getFn (s : FSAChunkStore) (index : Nat) (opts : GetOpts) :
    Except Err Bytes × FSAChunkStore :=
  if s.closed then (.error .storageClosed, s)
  else
    let isLast := s.lastChunkIndex = some (index : Int)
    let chunkLen : Nat := if isLast then s.lastChunkLength.getD 0 else s.chunkLength
    let rangeFrom : Int := opts.goffset.getD 0
    let lenTruthy : Bool := jsLenTruthy opts.glength
    let rangeTo : Int := if lenTruthy then rangeFrom + opts.glength.getD 0 else (chunkLen : Int)
    let len : Int := if lenTruthy then opts.glength.getD 0 else (chunkLen : Int) - rangeFrom
    if rangeFrom < 0 ∨ rangeTo > (chunkLen : Int) then (.error .invalidRange, s)
    else if rangeFrom = rangeTo then (.ok [], s)
    else if s.files.isNone ∨ (s.lookupChunk index).isSome then
      let content := (s.lookupChunk index).getD []
      let s1 :=
        match s.lookupChunk index with
        | some _ => s
        | none => { s with chunks := (index, []) :: s.chunks }
      let fileBytes :=
        if rangeFrom ≠ 0 ∨ len ≠ (chunkLen : Int) then blobSlice content rangeFrom (len + rangeFrom)
        else content
      if fileBytes.length = 0 then (.error .indexNotFound, s1) else (.ok fileBytes, s1)
    else
      let targets := chunkEntries s.chunkMap index
      if targets = [] then (.error .noFilesMatching, s)
      else
        let targets2 := targets.filter fun e =>
          decide (rangeFrom < (e.eto : Int)) && decide ((e.efrom : Int) < rangeTo)
        if targets2 = [] then (.error .noFilesMatching, s)
        else
          let pieces := targets2.map fun e =>
            let to2 : Int := if (e.eto : Int) > rangeTo then rangeTo else (e.eto : Int)
            let off2 : Int :=
              if (e.efrom : Int) < rangeFrom then (e.eoffset : Int) + (rangeFrom - (e.efrom : Int))
              else (e.eoffset : Int)
            let from2 : Int := if (e.efrom : Int) < rangeFrom then rangeFrom else (e.efrom : Int)
            blobSlice (s.fileBlobs.getD e.efile []) off2 (off2 + to2 - from2)
          let buf := pieces.flatten
          if buf.length = 0 then (.error .indexNotFound, s) else (.ok buf, s)

/-- The `cleanup()` method: a no-op on a closed or file-less store;
otherwise it closes every per-file write stream, deletes every entry of
the throwaway chunk directory, recreates that directory, and refreshes
every file's read snapshot. -/
def cleanupFn (s : FSAChunkStore) : FSAChunkStore :=
  if s.closed ∨ s.files.isNone then s
  else { s with chunks := [], fileBlobs := s.fileData, cacheDirPresent := true }

/-- The `close()` method: an error while already closing or closed;
otherwise it marks the store closing, runs `cleanup()` when files are
configured, and marks the store closed. -/
def closeFn (s : FSAChunkStore) : Except Err Unit × FSAChunkStore :=
  if s.closing then (.error .storageClosed, s)
  else
    let s1 := { s with closing := true }
    let s2 := if s1.files.isSome then s1.cleanupFn else s1
    (.ok (), { s2 with closed := true })

/-- The `destroy()` method: `close()`, and on success the recursive
removal of the store's named container under the root directory (taking
the cached chunk files and, when no file list is configured, everything
the store persisted with it). -/
def destroyFn (s : FSAChunkStore) : Except Err Unit × FSAChunkStore :=
  match s.closeFn with
  | (.error e, s') => (.error e, s')
  | (.ok _, s') =>
    (.ok (), { s' with storageDirPresent := false, chunks := [],
                       fileData := [], fileBlobs := [] })

/-- Consistency of the derived last-chunk fields with `totalLength` and
`chunkLength`, as established by the constructor and preserved by every
operation. -/
def wfb (s : FSAChunkStore) : Bool :=
  decide (0 < s.chunkLength) &&
  (match s.totalLength with
   | none => decide (s.lastChunkLength = none) && decide (s.lastChunkIndex = none)
   | some T =>
     decide (s.lastChunkLength =
       some (if T % s.chunkLength = 0 then s.chunkLength else T % s.chunkLength)) &&
     decide (s.lastChunkIndex = some (((T : Int) + s.chunkLength - 1) / s.chunkLength - 1)))

end FSAChunkStore

/-- The expected buffer length for a `put` at chunk `i`, as the
specification states it: the chunk length everywhere, except at the last
chunk of a finite-length store, where it is `totalLength mod chunkLength`
(or the chunk length when that remainder is zero). -/
def expectedLen (L : Nat) (T? : Option Nat) (i : Nat) : Nat :=
  match T? with
  | none => L
  | some T =>
    if (i : Int) = ((T : Int) + L - 1) / L - 1 then
      (if T % L = 0 then L else T % L)
    else L

namespace FSAChunkStore

lemma wfb_pos {s : FSAChunkStore} (h : s.wfb = true) : 0 < s.chunkLength := by
  unfold wfb at h
  cases htl : s.totalLength <;> rw [htl] at h <;>
    simp only [Bool.and_eq_true, decide_eq_true_eq] at h <;> exact h.1

lemma wfb_none {s : FSAChunkStore} (h : s.wfb = true) (htl : s.totalLength = none) :
    s.lastChunkLength = none ∧ s.lastChunkIndex = none := by
  unfold wfb at h
  rw [htl] at h
  simp only [Bool.and_eq_true, decide_eq_true_eq] at h
  exact h.2

lemma wfb_some {s : FSAChunkStore} {T : Nat} (h : s.wfb = true)
    (htl : s.totalLength = some T) :
    s.lastChunkLength =
      some (if T % s.chunkLength = 0 then s.chunkLength else T % s.chunkLength) ∧
    s.lastChunkIndex = some (((T : Int) + s.chunkLength - 1) / s.chunkLength - 1) := by
  unfold wfb at h
  rw [htl] at h
  simp only [Bool.and_eq_true, decide_eq_true_eq] at h
  exact h.2

/-- The effective chunk length computed by `_get` agrees with the
specification's expected length on a well-formed store. -/
lemma effLen_eq {s : FSAChunkStore} (hwf : s.wfb = true) (i : Nat) :
    (if s.lastChunkIndex = some (i : Int) then s.lastChunkLength.getD 0 else s.chunkLength)
      = expectedLen s.chunkLength s.totalLength i := by
  cases htl : s.totalLength with
  | none =>
    obtain ⟨h1, h2⟩ := wfb_none hwf htl
    simp [expectedLen, h2]
  | some T =>
    obtain ⟨h1, h2⟩ := wfb_some hwf htl
    rw [h1, h2]
    simp only [expectedLen]
    by_cases hi : (i : Int) = ((T : Int) + s.chunkLength - 1) / s.chunkLength - 1
    · rw [if_pos (by rw [hi]), if_pos hi]
      rfl
    · rw [if_neg (by intro hcon; exact hi (by injection hcon with h; omega)), if_neg hi]

lemma expectedLen_pos {L : Nat} (hL : 0 < L) (T? : Option Nat) (i : Nat) :
    0 < expectedLen L T? i := by
  cases T? with
  | none => exact hL
  | some T =>
    simp only [expectedLen]
    split_ifs with h1 h2
    · exact hL
    · omega
    · exact hL

/-- Fields of the state after a `put` whose length checks pass. -/
lemma putFn_success_fields (s : FSAChunkStore) (i : Nat) (buf : Bytes)
    (hopen : s.closed = false)
    (h1 : ¬(s.lastChunkIndex = some (i : Int) ∧ some buf.length ≠ s.lastChunkLength))
    (h2 : ¬(¬ s.lastChunkIndex = some (i : Int) ∧ buf.length ≠ s.chunkLength)) :
    ((s.putFn i buf).2).chunks = (i, buf) :: s.chunks ∧
    ((s.putFn i buf).2).closed = s.closed ∧
    ((s.putFn i buf).2).chunkLength = s.chunkLength ∧
    ((s.putFn i buf).2).lastChunkIndex = s.lastChunkIndex ∧
    ((s.putFn i buf).2).lastChunkLength = s.lastChunkLength ∧
    ((s.putFn i buf).2).totalLength = s.totalLength := by
  unfold putFn
  rw [hopen]
  simp only [Bool.false_eq_true, if_false, if_neg h1, if_neg h2]
  cases s.files with
  | none => simp
  | some fs =>
    simp only
    split <;> simp

lemma lookupChunk_cons_self (s : FSAChunkStore) (i : Nat) (buf : Bytes) (rest : List (Nat × Bytes))
    (hc : s.chunks = (i, buf) :: rest) : s.lookupChunk i = some buf := by
  unfold lookupChunk
  rw [hc]
  simp [List.find?]

/-- A parameterless `get` on a store whose chunk cache holds the full
chunk returns exactly the cached bytes and leaves the state unchanged. -/
lemma getFn_cache_full (s : FSAChunkStore) (i : Nat) (content : Bytes)
    (hopen : s.closed = false)
    (hlk : s.lookupChunk i = some content)
    (hcl : (if s.lastChunkIndex = some (i : Int) then s.lastChunkLength.getD 0 else s.chunkLength)
            = content.length)
    (hne : content.length ≠ 0) :
    s.getFn i ⟨none, none⟩ = (.ok content, s) := by
  unfold getFn
  rw [hopen]
  simp only [Bool.false_eq_true, if_false, Option.getD_none]
  rw [hcl]
  rw [if_neg (by push_neg; constructor <;> omega)]
  rw [if_neg (by intro hcon; exact hne (by exact_mod_cast hcon.symm))]
  rw [if_pos (by rw [hlk]; simp)]
  rw [hlk]
  simp only [Option.getD_some]
  simp [hne, jsLenTruthy]

end FSAChunkStore

namespace FSAChunkStore

/-- On a well-formed store, if `_put`'s `isLastChunk` test succeeds then
`lastChunkLength` is defined and equals the expected length. -/
lemma isLast_lastChunkLength {s : FSAChunkStore} {i : Nat} (hwf : s.wfb = true)
    (hil : s.lastChunkIndex = some (i : Int)) :
    s.lastChunkLength = some (expectedLen s.chunkLength s.totalLength i) := by
  have heff := effLen_eq hwf i
  rw [if_pos hil] at heff
  cases htl : s.totalLength with
  | none =>
    rw [(wfb_none hwf htl).2] at hil
    simp at hil
  | some T =>
    rw [(wfb_some hwf htl).1]
    rw [(wfb_some hwf htl).1] at heff
    simp only [Option.getD_some] at heff
    rw [heff, htl]

/-- A buffer of the expected length passes both of `_put`'s length
checks. -/
lemma put_checks_pass (s : FSAChunkStore) (i : Nat) (buf : Bytes)
    (hwf : s.wfb = true)
    (hlen : buf.length = expectedLen s.chunkLength s.totalLength i) :
    ¬(s.lastChunkIndex = some (i : Int) ∧ some buf.length ≠ s.lastChunkLength) ∧
    ¬(¬ s.lastChunkIndex = some (i : Int) ∧ buf.length ≠ s.chunkLength) := by
  have heff := effLen_eq hwf i
  constructor
  · rintro ⟨hil, hne⟩
    exact hne (by rw [isLast_lastChunkLength hwf hil, hlen])
  · rintro ⟨hil, hne⟩
    rw [if_neg hil] at heff
    exact hne (hlen.trans heff.symm)

end FSAChunkStore

/-- A `put` of a buffer of the expected length followed by a
parameterless `get` of the same index returns the buffer: the freshly
written per-chunk cache serves the read in every configuration. -/
lemma put_get_roundtrip (s : FSAChunkStore) (i : Nat) (buf : Bytes)
    (hwf : s.wfb = true) (hopen : s.closed = false)
    (hlen : buf.length = expectedLen s.chunkLength s.totalLength i) :
    (((s.putFn i buf).2).getFn i ⟨none, none⟩).1 = .ok buf := by
  obtain ⟨h1, h2⟩ := FSAChunkStore.put_checks_pass s i buf hwf hlen
  obtain ⟨hc, hcd, hcL, hcli, hclcl, hctl⟩ :=
    FSAChunkStore.putFn_success_fields s i buf hopen h1 h2
  have hlk := FSAChunkStore.lookupChunk_cons_self _ i buf _ hc
  have heff := FSAChunkStore.effLen_eq hwf i
  have hpos := FSAChunkStore.expectedLen_pos (FSAChunkStore.wfb_pos hwf) s.totalLength i
  rw [FSAChunkStore.getFn_cache_full _ i buf (by rw [hcd, hopen]) hlk
    (by rw [hcli, hclcl, hcL, heff, hlen]) (by rw [hlen]; omega)]

/-- C1: on an open store, a `put` of a buffer of the expected length at
chunk `i` followed by a parameterless `get` of `i` returns exactly that
buffer; the statement covers every store configuration, so it holds both
for the bare chunk store and for the configuration with logical files
(where the freshly written per-chunk cache file serves the read). -/
theorem c1_round_trip (s : FSAChunkStore) (i : Nat) (buf : Bytes)
    (hwf : s.wfb = true) (hopen : s.closed = false)
    (hlen : buf.length = expectedLen s.chunkLength s.totalLength i) :
    (((s.putFn i buf).2).getFn i ⟨none, none⟩).1 = .ok buf :=
  put_get_roundtrip s i buf hwf hopen hlen

/-- A fresh bare store with chunk length 10 and unbounded length. -/
def SBare : FSAChunkStore :=
  { chunkLength := 10, totalLength := none, lastChunkLength := none,
    lastChunkIndex := none, files := none, chunkMap := [], chunks := [],
    fileData := [], fileBlobs := [], closing := false, closed := false,
    storageDirPresent := true, cacheDirPresent := false }

/-- Witness for C1 at a concrete bare store and buffer. -/
theorem c1_round_trip_witness :
    SBare.wfb = true ∧ SBare.closed = false ∧
    ([0, 1, 2, 3, 4, 5, 6, 7, 8, 9] : Bytes).length
      = expectedLen SBare.chunkLength SBare.totalLength 0 ∧
    (((SBare.putFn 0 [0, 1, 2, 3, 4, 5, 6, 7, 8, 9]).2).getFn 0 ⟨none, none⟩).1
      = .ok [0, 1, 2, 3, 4, 5, 6, 7, 8, 9] :=
  ⟨by decide, by decide, by decide,
    c1_round_trip SBare 0 _ (by decide) (by decide) (by decide)⟩

namespace FSAChunkStore

/-- A `put` failing the last-chunk length check reports the last-chunk
length error and leaves the state unchanged. -/
lemma putFn_last_mismatch {s : FSAChunkStore} {i : Nat} {buf : Bytes}
    (hopen : s.closed = false) (hil : s.lastChunkIndex = some (i : Int))
    (hne : some buf.length ≠ s.lastChunkLength) :
    s.putFn i buf = (.error .lastChunkLenMismatch, s) := by
  unfold putFn
  rw [hopen]
  simp only [Bool.false_eq_true, if_false]
  rw [if_pos ⟨hil, hne⟩]

/-- A `put` failing the plain chunk length check reports the chunk length
error and leaves the state unchanged. -/
lemma putFn_chunk_mismatch {s : FSAChunkStore} {i : Nat} {buf : Bytes}
    (hopen : s.closed = false) (hil : ¬ s.lastChunkIndex = some (i : Int))
    (hne : buf.length ≠ s.chunkLength) :
    s.putFn i buf = (.error .chunkLenMismatch, s) := by
  unfold putFn
  rw [hopen]
  simp only [Bool.false_eq_true, if_false]
  rw [if_neg (by rintro ⟨h, _⟩; exact hil h), if_pos ⟨hil, hne⟩]

/-- A `put` passing both length checks either succeeds or reports the
no-matching-files error. -/
lemma putFn_fst_ok_or_nomatch (s : FSAChunkStore) (i : Nat) (buf : Bytes)
    (hopen : s.closed = false)
    (h1 : ¬(s.lastChunkIndex = some (i : Int) ∧ some buf.length ≠ s.lastChunkLength))
    (h2 : ¬(¬ s.lastChunkIndex = some (i : Int) ∧ buf.length ≠ s.chunkLength)) :
    (s.putFn i buf).1 = .ok () ∨ (s.putFn i buf).1 = .error .noFilesMatching := by
  unfold putFn
  rw [hopen]
  simp only [Bool.false_eq_true, if_false, if_neg h1, if_neg h2]
  cases s.files with
  | none => simp
  | some fs =>
    simp only
    split
    · right; rfl
    · left; rfl

end FSAChunkStore

/-- Whether an error is one of the two length-mismatch errors thrown by
`_put`. -/
def Err.isLenMismatch : Err → Bool
  | .lastChunkLenMismatch => true
  | .chunkLenMismatch => true
  | _ => false

/-- Whether a `put` outcome is a length-mismatch failure. -/
def lenMismatchRes : Except Err Unit → Bool
  | .error e => e.isLenMismatch
  | .ok _ => false

/-- C4: on an open well-formed store, `put(i, buf)` fails with a
length-mismatch error exactly when `buf` does not have the expected
length for chunk `i` (the chunk length, or at the last chunk of a
finite-length store `totalLength mod chunkLength`, or the chunk length
when that remainder is zero), and such a failure performs no write: the
state is unchanged. -/
theorem c4_put_length_enforcement (s : FSAChunkStore) (i : Nat) (buf : Bytes)
    (hwf : s.wfb = true) (hopen : s.closed = false) :
    (lenMismatchRes (s.putFn i buf).1 = true ↔
      buf.length ≠ expectedLen s.chunkLength s.totalLength i) ∧
    (buf.length ≠ expectedLen s.chunkLength s.totalLength i → (s.putFn i buf).2 = s) := by
  by_cases hlen : buf.length = expectedLen s.chunkLength s.totalLength i
  · obtain ⟨h1, h2⟩ := FSAChunkStore.put_checks_pass s i buf hwf hlen
    refine ⟨⟨fun hmm => ?_, fun h => absurd hlen h⟩, fun h => absurd hlen h⟩
    rcases FSAChunkStore.putFn_fst_ok_or_nomatch s i buf hopen h1 h2 with h | h <;>
      rw [h] at hmm <;> simp [lenMismatchRes, Err.isLenMismatch] at hmm
  · by_cases hil : s.lastChunkIndex = some (i : Int)
    · have hll := FSAChunkStore.isLast_lastChunkLength hwf hil
      have hne : some buf.length ≠ s.lastChunkLength := by
        rw [hll]
        intro hc
        injection hc with hc
        exact hlen hc
      rw [FSAChunkStore.putFn_last_mismatch hopen hil hne]
      exact ⟨by simp [lenMismatchRes, Err.isLenMismatch, hlen], fun _ => rfl⟩
    · have heff := FSAChunkStore.effLen_eq hwf i
      rw [if_neg hil] at heff
      have hne : buf.length ≠ s.chunkLength := by rw [heff]; exact hlen
      rw [FSAChunkStore.putFn_chunk_mismatch hopen hil hne]
      exact ⟨by simp [lenMismatchRes, Err.isLenMismatch, hlen], fun _ => rfl⟩

/-- Witness for C4: a 3-byte buffer at a store of chunk length 10 is a
length mismatch and leaves the store unchanged. -/
theorem c4_put_length_enforcement_witness :
    SBare.wfb = true ∧ SBare.closed = false ∧
    (lenMismatchRes (SBare.putFn 0 [1, 2, 3]).1 = true ↔
      ([1, 2, 3] : Bytes).length ≠ expectedLen SBare.chunkLength SBare.totalLength 0) ∧
    (SBare.putFn 0 [1, 2, 3]).2 = SBare :=
  ⟨by decide, by decide,
    (c4_put_length_enforcement SBare 0 [1, 2, 3] (by decide) (by decide)).1,
    (c4_put_length_enforcement SBare 0 [1, 2, 3] (by decide) (by decide)).2 (by decide)⟩

/-- C7: on an open store the first `close()` succeeds (running `cleanup`
first when files are configured, which empties the chunk cache and
refreshes the snapshots), every further `close()` fails with the
storage-closed error rather than being a no-op, and after closing every
`put` and `get` fails with the storage-closed error. -/
theorem c7_close_lifecycle (s : FSAChunkStore)
    (hcg : s.closing = false) (hcd : s.closed = false) :
    (s.closeFn).1 = .ok () ∧
    ((s.closeFn).2).closed = true ∧
    ((s.closeFn).2).closing = true ∧
    (s.files.isSome = true →
      ((s.closeFn).2).chunks = [] ∧ ((s.closeFn).2).fileBlobs = s.fileData) ∧
    ((s.closeFn).2).closeFn = (.error .storageClosed, (s.closeFn).2) ∧
    (∀ j buf, ((s.closeFn).2).putFn j buf = (.error .storageClosed, (s.closeFn).2)) ∧
    (∀ j opts, ((s.closeFn).2).getFn j opts = (.error .storageClosed, (s.closeFn).2)) := by
  cases hf : s.files with
  | none =>
    simp [FSAChunkStore.closeFn, FSAChunkStore.cleanupFn, FSAChunkStore.putFn,
      FSAChunkStore.getFn, hcg, hcd, hf]
  | some fs =>
    simp [FSAChunkStore.closeFn, FSAChunkStore.cleanupFn, FSAChunkStore.putFn,
      FSAChunkStore.getFn, hcg, hcd, hf]

/-- Witness for C7 at a concrete open store. -/
theorem c7_close_lifecycle_witness :
    SBare.closing = false ∧ SBare.closed = false ∧
    (SBare.closeFn).1 = .ok () ∧
    ((SBare.closeFn).2).closeFn = (.error .storageClosed, (SBare.closeFn).2) ∧
    ((SBare.closeFn).2).putFn 0 [0, 1, 2, 3, 4, 5, 6, 7, 8, 9]
      = (.error .storageClosed, (SBare.closeFn).2) ∧
    ((SBare.closeFn).2).getFn 0 ⟨none, none⟩ = (.error .storageClosed, (SBare.closeFn).2) :=
  ⟨by decide, by decide,
    (c7_close_lifecycle SBare (by decide) (by decide)).1,
    (c7_close_lifecycle SBare (by decide) (by decide)).2.2.2.2.1,
    (c7_close_lifecycle SBare (by decide) (by decide)).2.2.2.2.2.1 0 _,
    (c7_close_lifecycle SBare (by decide) (by decide)).2.2.2.2.2.2 0 _⟩

/-- C10: on an open well-formed store with files configured, a `put` of a
correct-length buffer at a chunk index with no `chunkMap` entries reports
the no-matching-files error, yet the per-chunk cache write has already
been issued, so the cache holds the buffer despite the error. -/
theorem c10_put_error_cache_written (s : FSAChunkStore) (i : Nat) (buf : Bytes)
    (hwf : s.wfb = true) (hopen : s.closed = false)
    (hfiles : s.files.isSome = true)
    (hempty : chunkEntries s.chunkMap i = [])
    (hlen : buf.length = expectedLen s.chunkLength s.totalLength i) :
    (s.putFn i buf).1 = .error .noFilesMatching ∧
    ((s.putFn i buf).2).lookupChunk i = some buf := by
  obtain ⟨h1, h2⟩ := FSAChunkStore.put_checks_pass s i buf hwf hlen
  unfold FSAChunkStore.putFn
  rw [hopen]
  simp only [Bool.false_eq_true, if_false, if_neg h1, if_neg h2]
  cases hf : s.files with
  | none => rw [hf] at hfiles; simp at hfiles
  | some fs => simp [hempty, FSAChunkStore.lookupChunk, List.find?]

/-- The bare store after a full-chunk `put` at index 0: the state used by
several concrete counterexamples. -/
def SBareP : FSAChunkStore := (SBare.putFn 0 [0, 1, 2, 3, 4, 5, 6, 7, 8, 9]).2

/-- Counterexample to C5: with chunk length 10 and chunk 0 written, the
zero-length request `get(0, {offset: 2, length: 0})` does not return an
empty result — `length: 0` is JavaScript-falsy, so the request behaves
as if `length` were omitted and returns the bytes from offset 2 to the
end of the chunk. -/
theorem c5_counterexample :
    (SBareP.getFn 0 ⟨some 2, some 0⟩).1 = .ok [2, 3, 4, 5, 6, 7, 8, 9] ∧
    (SBareP.getFn 0 ⟨some 2, some 0⟩).1 ≠ .ok ([] : Bytes) := by decide

/-- C5 (amended): a `get` request with a falsy `length` (absent or zero)
and `offset` equal to the effective chunk length — the only case in
which the computed range start equals the computed range end — returns
an empty byte result and leaves the state untouched, creating no storage
artifact; a `{offset: k, length: 0}` request with `k` below the
effective chunk length instead behaves as if `length` were omitted. -/
theorem c5_zero_length_get (s : FSAChunkStore) (i : Nat) (olen : Option Int)
    (hopen : s.closed = false)
    (hfalsy : jsLenTruthy olen = false) :
    s.getFn i ⟨some ((if s.lastChunkIndex = some (i : Int) then s.lastChunkLength.getD 0
      else s.chunkLength : Nat) : Int), olen⟩ = (.ok [], s) := by
  unfold FSAChunkStore.getFn
  rw [hopen]
  simp only [Bool.false_eq_true, if_false, Option.getD_some, hfalsy]
  rw [if_neg (by push_neg; exact ⟨Int.natCast_nonneg _, le_refl _⟩)]
  simp

/-- Witness for the amended C5 at the bare store: offset 10 with
`length: 0` yields the empty result without touching the state. -/
theorem c5_zero_length_get_witness :
    SBare.closed = false ∧ jsLenTruthy (some 0) = false ∧
    SBare.getFn 0 ⟨some 10, some 0⟩ = (.ok [], SBare) :=
  ⟨by decide, by decide, c5_zero_length_get SBare 0 (some 0) (by decide) (by decide)⟩

/-- A bare store with chunk length 10 and total length 7, so its single
chunk (index 0) has effective length 7. -/
def SLast : FSAChunkStore :=
  { chunkLength := 10, totalLength := some 7, lastChunkLength := some 7,
    lastChunkIndex := some 0, files := none, chunkMap := [], chunks := [],
    fileData := [], fileBlobs := [], closing := false, closed := false,
    storageDirPresent := true, cacheDirPresent := false }

/-- The total-length-7 store after its 7-byte chunk was written. -/
def SLastP : FSAChunkStore := (SLast.putFn 0 [1, 2, 3, 4, 5, 6, 7]).2

/-- Counterexample to C6: on the last chunk of effective length 7, a
`get` with offset 8 and no length is rejected, но with the not-found
error (`Index 0 does not exist`), not the out-of-range error the claim
names — the default range end is the chunk length itself, so the
validation never fires for an oversized bare offset. -/
theorem c6_counterexample :
    (SLastP.getFn 0 ⟨some 8, none⟩).1 = .error .indexNotFound ∧
    Err.indexNotFound ≠ Err.invalidRange := by decide

/-- C6 (amended): on an open store, `get` fails with the out-of-range
error exactly when the offset is negative, or a truthy (nonzero) length
is supplied and offset + length exceeds the effective chunk length; an
offset beyond the chunk with a falsy length passes validation and
surfaces as the not-found error instead, while offset 4 with length 4 on
an effective length of 7 is rejected as out-of-range. -/
theorem c6_get_range_validation (s : FSAChunkStore) (i : Nat) (opts : GetOpts)
    (hopen : s.closed = false) :
    (s.getFn i opts).1 = .error .invalidRange ↔
      (opts.goffset.getD 0 < 0 ∨
        (jsLenTruthy opts.glength = true ∧
          opts.goffset.getD 0 + opts.glength.getD 0 >
            ((if s.lastChunkIndex = some (i : Int) then s.lastChunkLength.getD 0
              else s.chunkLength : Nat) : Int))) := by
  unfold FSAChunkStore.getFn
  rw [hopen]
  simp only [Bool.false_eq_true, if_false]
  by_cases ht : jsLenTruthy opts.glength = true
  · simp only [ht, if_true]
    by_cases hv : opts.goffset.getD 0 < 0 ∨
        opts.goffset.getD 0 + opts.glength.getD 0 >
          ((if s.lastChunkIndex = some (i : Int) then s.lastChunkLength.getD 0
            else s.chunkLength : Nat) : Int)
    · rw [if_pos hv]
      simpa using hv
    · rw [if_neg hv]
      constructor
      · intro h
        exfalso
        repeat' split at h
        all_goals simp at h
      · intro h
        exfalso
        rcases h with h | ⟨_, h⟩
        · exact hv (Or.inl h)
        · exact hv (Or.inr h)
  · have ht' : jsLenTruthy opts.glength = false := by
      cases hj : jsLenTruthy opts.glength
      · rfl
      · exact absurd hj ht
    simp only [ht', Bool.false_eq_true, if_false]
    by_cases hneg : opts.goffset.getD 0 < 0
    · rw [if_pos (Or.inl hneg)]
      simp [hneg]
    · rw [if_neg (by
        rintro (hc | hc)
        · exact hneg hc
        · exact absurd hc (lt_irrefl _))]
      constructor
      · intro h
        exfalso
        repeat' split at h
        all_goals simp at h
      · intro h
        exfalso
        rcases h with h | ⟨hj, _⟩
        · exact hneg h
        · exact hj

/-- Witness for the amended C6: offset 4 with length 4 on the 7-byte
last chunk is rejected as out-of-range. -/
theorem c6_get_range_validation_witness :
    SLastP.closed = false ∧
    (SLastP.getFn 0 ⟨some 4, some 4⟩).1 = .error .invalidRange :=
  ⟨by decide,
    (c6_get_range_validation SLastP 0 ⟨some 4, some 4⟩ (by decide)).mpr (by decide)⟩

/-- The two logical files (lengths 5 and 5, contiguous) used by the
concrete file-backed store. -/
def FilesC : List FileRes := [⟨"a", 5, 0⟩, ⟨"b", 5, 5⟩]

/-- A fresh store with chunk length 10 over `FilesC`, exactly as the
constructor produces it. -/
def SFiles : FSAChunkStore :=
  { chunkLength := 10, totalLength := some 10, lastChunkLength := some 10,
    lastChunkIndex := some 0, files := some FilesC,
    chunkMap := buildChunkMap 10 FilesC, chunks := [],
    fileData := [[], []], fileBlobs := [[], []], closing := false,
    closed := false, storageDirPresent := true, cacheDirPresent := true }

/-- The constructor really yields `SFiles` for the corresponding
options. -/
lemma mkStore_SFiles :
    mkStore (some 10) ⟨true, none,
      some [⟨some "a", some 5, none⟩, ⟨some "b", some 5, none⟩]⟩ = .ok SFiles := by
  decide

/-- Counterexample to C8: on a file-backed store, a successful
`destroy()` leaves the throwaway chunk-cache directory for the store's
name in place (cleanup empties and then recreates it; `destroy` removes
only the named container under the root directory), so a lookup of the
cache subtree still succeeds rather than failing as not-found. -/
theorem c8_counterexample :
    (SFiles.destroyFn).1 = .ok () ∧
    ((SFiles.destroyFn).2).cacheDirPresent = true := by decide

/-- C8 (amended): `destroy()` first performs `close()`; when that fails
(store already closing) it reports the error and deletes nothing, and
when it succeeds it recursively deletes the named container under the
root directory, so a lookup of the store's name there fails; the
throwaway chunk-cache subtree of a file-backed store is emptied by the
implicit cleanup but its directory is recreated rather than deleted. -/
theorem c8_destroy (s : FSAChunkStore) :
    (s.closing = true → s.destroyFn = (.error .storageClosed, s)) ∧
    (s.closing = false → s.closed = false →
      (s.destroyFn).1 = .ok () ∧
      ((s.destroyFn).2).storageDirPresent = false ∧
      ((s.destroyFn).2).chunks = [] ∧
      (s.files.isSome = true → ((s.destroyFn).2).cacheDirPresent = true) ∧
      (s.files.isSome = false → ((s.destroyFn).2).cacheDirPresent = s.cacheDirPresent)) := by
  constructor
  · intro hcg
    unfold FSAChunkStore.destroyFn FSAChunkStore.closeFn
    rw [hcg]
    simp
  · intro hcg hcd
    cases hf : s.files with
    | none =>
      unfold FSAChunkStore.destroyFn FSAChunkStore.closeFn FSAChunkStore.cleanupFn
      rw [hcg]
      simp [hf]
    | some fs =>
      unfold FSAChunkStore.destroyFn FSAChunkStore.closeFn FSAChunkStore.cleanupFn
      rw [hcg]
      simp [hf, hcd]

/-- Witness for the amended C8 at the concrete file-backed store. -/
theorem c8_destroy_witness :
    SFiles.closing = false ∧ SFiles.closed = false ∧ SFiles.files.isSome = true ∧
    (SFiles.destroyFn).1 = .ok () ∧
    ((SFiles.destroyFn).2).storageDirPresent = false ∧
    ((SFiles.destroyFn).2).cacheDirPresent = true :=
  ⟨by decide, by decide, by decide,
    ((c8_destroy SFiles).2 (by decide) (by decide)).1,
    ((c8_destroy SFiles).2 (by decide) (by decide)).2.1,
    ((c8_destroy SFiles).2 (by decide) (by decide)).2.2.2.1 (by decide)⟩

/-- Options with a file list whose only entry is missing `path`, and no
`rootDir`. -/
def BadFileOpts : StoreOpts := ⟨false, none, some [⟨none, some 5, none⟩]⟩

/-- Counterexample to C9: a configuration supplying a file list whose
entry is missing `path` but supplying no `rootDir` constructs
successfully — the constructor validates the file list only when both
`files` and `rootDir` are given, so no configuration error is raised. -/
theorem c9_counterexample :
    BadFileOpts.ofiles = some [{ path := none, flen := some 5, foffset := none }] ∧
    (mkStore (some 10) BadFileOpts).isOk = true := by decide

/-- A file list containing an entry missing `path` or `length` makes
`resolveFiles` fail with the corresponding configuration error. -/
lemma resolveFiles_bad (fl : List FileIn) :
    ∀ a, (∃ f ∈ fl, f.path = none ∨ f.flen = none) →
      resolveFiles a fl = .error .filePathMissing ∨
      resolveFiles a fl = .error .fileLengthMissing := by
  induction fl with
  | nil =>
    intro a h
    rcases h with ⟨f, hf, _⟩
    simp at hf
  | cons g rest ih =>
    intro a h
    rcases hpath : g.path with _ | p
    · left
      unfold resolveFiles
      rw [hpath]
    · rcases hlen : g.flen with _ | l
      · right
        unfold resolveFiles
        rw [hpath, hlen]
      · have h' : ∃ f ∈ rest, f.path = none ∨ f.flen = none := by
          rcases h with ⟨f, hf, hor⟩
          rcases List.mem_cons.mp hf with rfl | hf'
          · rcases hor with hh | hh
            · rw [hpath] at hh
              cases hh
            · rw [hlen] at hh
              cases hh
          · exact ⟨f, hf', hor⟩
        have hrec := ih (g.foffset.getD a + l) h'
        rcases hrec with hcase | hcase
        · left
          simp [resolveFiles, hpath, hlen, hcase]
        · right
          simp [resolveFiles, hpath, hlen, hcase]

/-- C9 (amended): when a file list and a `rootDir` are both supplied
(the configuration in which the file list takes effect), a file entry
missing `path` or `length` raises the corresponding configuration error
at construction, and an explicit total length differing from the sum of
the file lengths raises the construction-time mismatch error; a missing
or zero chunk length raises a construction error in every
configuration. -/
theorem c9_construction_errors :
    (∀ (L : Nat) (fl : List FileIn) (opts : StoreOpts),
      opts.rootDir = true → opts.ofiles = some fl →
      (∃ f ∈ fl, f.path = none ∨ f.flen = none) → L ≠ 0 →
      mkStore (some L) opts = .error .filePathMissing ∨
      mkStore (some L) opts = .error .fileLengthMissing) ∧
    (∀ (L : Nat) (fl : List FileIn) (fs : List FileRes) (opts : StoreOpts) (t : Nat),
      opts.rootDir = true → opts.ofiles = some fl →
      resolveFiles 0 fl = .ok fs → opts.olength = some t →
      t ≠ (fs.map (·.flen)).sum → L ≠ 0 →
      mkStore (some L) opts = .error .lengthOptionMismatch) ∧
    (∀ opts, mkStore none opts = .error .chunkLengthRequired) ∧
    (∀ opts, mkStore (some 0) opts = .error .chunkLengthRequired) := by
  refine ⟨?_, ?_, fun opts => rfl, fun opts => by simp [mkStore]⟩
  · intro L fl opts hrd hof hbad hL
    rcases resolveFiles_bad fl 0 hbad with hcase | hcase
    · left
      simp only [mkStore, hof, hrd, hcase]
      rw [if_neg hL]
    · right
      simp only [mkStore, hof, hrd, hcase]
      rw [if_neg hL]
  · intro L fl fs opts t hrd hof hres holen ht hL
    simp only [mkStore, hof, hrd, hres]
    rw [if_neg hL]
    rw [if_pos ⟨by rw [holen]; simp, by rw [holen]; simpa using ht⟩]

/-- Witness for the amended C9: the missing-path error with `rootDir`,
the explicit-length mismatch, and the zero and missing chunk length
errors, each at a concrete configuration. -/
theorem c9_construction_errors_witness :
    (mkStore (some 10) ⟨true, none, some [⟨none, some 5, none⟩]⟩
        = .error .filePathMissing ∨
      mkStore (some 10) ⟨true, none, some [⟨none, some 5, none⟩]⟩
        = .error .fileLengthMissing) ∧
    mkStore (some 10) ⟨true, some 9,
      some [⟨some "a", some 5, none⟩, ⟨some "b", some 5, none⟩]⟩
      = .error .lengthOptionMismatch ∧
    mkStore none ⟨false, none, none⟩ = .error .chunkLengthRequired ∧
    mkStore (some 0) ⟨false, none, none⟩ = .error .chunkLengthRequired :=
  ⟨c9_construction_errors.1 10 _ _ rfl rfl
      ⟨⟨none, some 5, none⟩, by simp, Or.inl rfl⟩ (by decide),
    c9_construction_errors.2.1 10 _ [⟨"a", 5, 0⟩, ⟨"b", 5, 5⟩] _ 9 rfl rfl
      (by decide) rfl (by decide) (by decide),
    c9_construction_errors.2.2.1 _,
    c9_construction_errors.2.2.2 _⟩

/-- Witness for C10 at the concrete file-backed store: chunk 5 has no
entries; `put(5, buf)` errors yet the cache holds `buf`. -/
theorem c10_put_error_cache_written_witness :
    SFiles.wfb = true ∧ SFiles.closed = false ∧ SFiles.files.isSome = true ∧
    chunkEntries SFiles.chunkMap 5 = [] ∧
    ([0, 1, 2, 3, 4, 5, 6, 7, 8, 9] : Bytes).length
      = expectedLen SFiles.chunkLength SFiles.totalLength 5 ∧
    (SFiles.putFn 5 [0, 1, 2, 3, 4, 5, 6, 7, 8, 9]).1 = .error .noFilesMatching ∧
    ((SFiles.putFn 5 [0, 1, 2, 3, 4, 5, 6, 7, 8, 9]).2).lookupChunk 5
      = some [0, 1, 2, 3, 4, 5, 6, 7, 8, 9] :=
  ⟨by decide, by decide, by decide, by decide, by decide,
    (c10_put_error_cache_written SFiles 5 _ (by decide) (by decide) (by decide)
      (by decide) (by decide)).1,
    (c10_put_error_cache_written SFiles 5 _ (by decide) (by decide) (by decide)
      (by decide) (by decide)).2⟩

/-- A `chunkMap` entry as §4.1 of the specification words it, with the
`max`/`min` formulas over the integers. -/
structure SpecEntry where
  sfrom : Int
  sto : Int
  soffset : Int
  sfile : Nat
  deriving Repr, DecidableEq

/-- View of a source entry with its fields as integers, for comparison
with the specification's formulas. -/
def entryToSpec (e : ChunkMapEntry) : SpecEntry :=
  ⟨e.efrom, e.eto, e.eoffset, e.efile⟩

/-- The specification's Range Mapper contract for one file: for every
chunk index `c` from `floor(fileStart / chunkLength)` to
`floor((fileEnd - 1) / chunkLength)`, the entry
`from = max(0, fileStart - c*chunkLength)`,
`to = min(chunkLength, fileEnd - c*chunkLength)`,
`chunkByteOffset = max(0, c*chunkLength - fileStart)`. -/
def specFileEntries (L j a l : Nat) : List (Nat × SpecEntry) :=
  (List.range' (a / L) ((a + l - 1) / L + 1 - a / L)).map fun c =>
    (c, ⟨max 0 ((a : Int) - (c : Int) * L),
         min (L : Int) ((a : Int) + l - (c : Int) * L),
         max 0 ((c : Int) * L - (a : Int)), j⟩)

/-- The specification's ChunkMap: each file's entries appended in
file-list order. -/
def specChunkMapAux (L : Nat) : Nat → List FileRes → List (Nat × SpecEntry)
  | _, [] => []
  | j, f :: rest => specFileEntries L j f.foff f.flen ++ specChunkMapAux L (j + 1) rest

/-- The specification's ChunkMap for a resolved file list. -/
def specChunkMap (L : Nat) (fs : List FileRes) : List (Nat × SpecEntry) :=
  specChunkMapAux L 0 fs

/-- The offset-assignment rule: a file without an explicit offset starts
at the previous file's offset plus its length (0 for the first file). -/
def specAssign (prevEnd : Nat) : List FileIn → List Nat
  | [] => []
  | f :: rest =>
    let o := f.foffset.getD prevEnd
    o :: specAssign (o + f.flen.getD 0) rest

/-- Counterexample to C2: with files `[{offset: 7, length: 5},
{length: 5}]` the second file (offset unset) is assigned offset 12 — the
previous file's offset plus its length — and not 5, the sum of the
preceding files' lengths that the claim states. -/
theorem c2_counterexample :
    (resolveFiles 0 [⟨some "a", some 5, some 7⟩, ⟨some "b", some 5, none⟩]).map
        (fun fs => fs.map FileRes.foff) = .ok [7, 12] ∧
    (Except.ok [7, 12] : Except Err (List Nat)) ≠ .ok [7, 5] := by decide

/-- Offsets resolved by the constructor agree with the previous-file
assignment rule. -/
lemma resolveFiles_offsets (fl : List FileIn) :
    ∀ (a : Nat) (fs : List FileRes), resolveFiles a fl = .ok fs →
      fs.map (·.foff) = specAssign a fl := by
  induction fl with
  | nil =>
    intro a fs h
    simp only [resolveFiles, Except.ok.injEq] at h
    subst h
    rfl
  | cons g rest ih =>
    intro a fs h
    rcases hpath : g.path with _ | p
    · simp [resolveFiles, hpath] at h
    · rcases hlen : g.flen with _ | l
      · simp [resolveFiles, hpath, hlen] at h
      · rcases hrec : resolveFiles (g.foffset.getD a + l) rest with e | rs
        · simp [resolveFiles, hpath, hlen, hrec] at h
        · simp only [resolveFiles, hpath, hlen, hrec, Except.ok.injEq] at h
          subst h
          simp only [List.map_cons, specAssign, hlen, Option.getD_some]
          exact congrArg (List.cons _) (ih _ rs hrec)

/-- The source's conditional entry formulas agree with the
specification's `max`/`min` formulas on every chunk of a file's range. -/
lemma fileEntries_spec (L j a l : Nat) (hL : 0 < L) (hl : 0 < l) :
    (fileEntries L j a l).map (fun p => (p.1, entryToSpec p.2))
      = specFileEntries L j a l := by
  unfold fileEntries specFileEntries
  rw [List.map_map]
  apply List.map_congr_left
  intro c hc
  rw [List.mem_range'_1] at hc
  obtain ⟨hc1, hc2⟩ := hc
  have hfirst : a < c * L + L := by
    rw [← Nat.lt_succ_iff, Nat.div_lt_iff_lt_mul hL] at hc1
    rw [Nat.succ_mul] at hc1
    exact hc1
  have hlast : c * L < a + l := by
    have h2 : c ≤ (a + l - 1) / L := by
      have hmono : a / L ≤ (a + l - 1) / L := Nat.div_le_div_right (by omega)
      omega
    rw [Nat.le_div_iff_mul_le hL] at h2
    omega
  have hmul : ((c * L : Nat) : Int) = (c : Int) * L := by push_cast; ring
  simp only [Function.comp, entryToSpec, mkEntryFor, Prod.mk.injEq, SpecEntry.mk.injEq]
  refine ⟨trivial, ?_, ?_, ?_, trivial⟩ <;> rw [← hmul] <;> split_ifs <;> omega

/-- The whole source ChunkMap agrees with the specification's ChunkMap,
entry for entry and in the same order. -/
lemma buildChunkMapAux_spec (L : Nat) (hL : 0 < L) :
    ∀ (fs : List FileRes) (j : Nat), (∀ f ∈ fs, 0 < f.flen) →
      (buildChunkMapAux L j fs).map (fun p => (p.1, entryToSpec p.2))
        = specChunkMapAux L j fs := by
  intro fs
  induction fs with
  | nil => intro j _; rfl
  | cons f rest ih =>
    intro j hpos
    simp only [buildChunkMapAux, specChunkMapAux, List.map_append]
    rw [fileEntries_spec L j f.foff f.flen hL (hpos f (by simp))]
    rw [ih (j + 1) fun g hg => hpos g (by simp [hg])]

/-- C2 (amended): for chunkLength > 0 and a valid file list with positive
lengths, construction assigns each file without an explicit offset the
previous file's offset plus its length (0 for the first file) — not the
sum of the preceding lengths, which differs once an explicit offset
appears — and appends to ChunkMap[c], for every c from
floor(fileStart/chunkLength) to floor((fileEnd-1)/chunkLength), the
entry with from = max(0, fileStart - c*chunkLength),
to = min(chunkLength, fileEnd - c*chunkLength) and
chunkByteOffset = max(0, c*chunkLength - fileStart), in file-list
order. -/
theorem c2_range_mapper (L : Nat) (fl : List FileIn) (fs : List FileRes)
    (hL : 0 < L) (hres : resolveFiles 0 fl = .ok fs)
    (hpos : ∀ f ∈ fs, 0 < f.flen) :
    fs.map (·.foff) = specAssign 0 fl ∧
    (buildChunkMap L fs).map (fun p => (p.1, entryToSpec p.2)) = specChunkMap L fs :=
  ⟨resolveFiles_offsets fl 0 fs hres, buildChunkMapAux_spec L hL fs 0 hpos⟩

/-- Witness for the amended C2 at the two-file layout of lengths 5 and
5. -/
theorem c2_range_mapper_witness :
    (0 : Nat) < 10 ∧
    resolveFiles 0 [⟨some "a", some 5, none⟩, ⟨some "b", some 5, none⟩] = .ok FilesC ∧
    (∀ f ∈ FilesC, 0 < f.flen) ∧
    FilesC.map (·.foff) = specAssign 0 [⟨some "a", some 5, none⟩, ⟨some "b", some 5, none⟩] ∧
    (buildChunkMap 10 FilesC).map (fun p => (p.1, entryToSpec p.2)) = specChunkMap 10 FilesC :=
  ⟨by decide, by decide, by decide,
    (c2_range_mapper 10 [⟨some "a", some 5, none⟩, ⟨some "b", some 5, none⟩] FilesC
      (by decide) (by decide) (by decide)).1,
    (c2_range_mapper 10 [⟨some "a", some 5, none⟩, ⟨some "b", some 5, none⟩] FilesC
      (by decide) (by decide) (by decide)).2⟩

/-- Contiguity of resolved files: the first file starts at `a` and each
subsequent file starts where the previous one ends. -/
def Contig : Nat → List FileRes → Prop
  | _, [] => True
  | a, f :: rest => f.foff = a ∧ Contig (a + f.flen) rest

/-- With no explicit offsets, the constructor's resolution lays the files
out contiguously, and positive input lengths stay positive. -/
lemma resolveFiles_contig (fl : List FileIn) :
    ∀ (a : Nat) (fs : List FileRes),
      (∀ f ∈ fl, f.foffset = none) →
      (∀ f ∈ fl, 0 < f.flen.getD 0) →
      resolveFiles a fl = .ok fs →
      Contig a fs ∧ (∀ f ∈ fs, 0 < f.flen) := by
  induction fl with
  | nil =>
    intro a fs _ _ h
    simp only [resolveFiles, Except.ok.injEq] at h
    subst h
    exact ⟨trivial, by simp⟩
  | cons g rest ih =>
    intro a fs hofs hlenpos h
    rcases hpath : g.path with _ | p
    · simp [resolveFiles, hpath] at h
    · rcases hlen : g.flen with _ | l
      · simp [resolveFiles, hpath, hlen] at h
      · rcases hrec : resolveFiles (g.foffset.getD a + l) rest with e | rs
        · simp [resolveFiles, hpath, hlen, hrec] at h
        · simp only [resolveFiles, hpath, hlen, hrec, Except.ok.injEq] at h
          subst h
          have hg0 : g.foffset = none := hofs g (by simp)
          rw [hg0] at hrec ⊢
          simp only [Option.getD_none] at hrec ⊢
          obtain ⟨hct, hps⟩ := ih (a + l) rs
            (fun f hf => hofs f (by simp [hf]))
            (fun f hf => hlenpos f (by simp [hf])) hrec
          refine ⟨⟨rfl, hct⟩, ?_⟩
          intro f hf
          rcases List.mem_cons.mp hf with rfl | hf'
          · have := hlenpos g (by simp)
            rw [hlen] at this
            simpa using this
          · exact hps f hf'

/-- Equal drop positions and take amounts give equal windows. -/
lemma take_drop_congr (buf : Bytes) (p q m n : Nat) (hp : p = q) (hm : m = n) :
    (buf.drop p).take m = (buf.drop q).take n := by rw [hp, hm]

lemma getD_set_ne (l : List Bytes) (i k : Nat) (v : Bytes) (h : i ≠ k) :
    (l.set i v).getD k [] = l.getD k [] := by
  simp [List.getD, List.getElem?_set_ne h]

lemma getD_set_self (l : List Bytes) (i : Nat) (v : Bytes) (h : i < l.length) :
    (l.set i v).getD i [] = v := by
  simp [List.getD, List.getElem?_set_self, h]

lemma getD_replicate (n k : Nat) (h : k < n) :
    (List.replicate n ([] : Bytes)).getD k [] = [] := by
  simp [List.getD, List.getElem?_replicate, h]

/-- `chunkMap[c]` distributes over concatenation of map segments. -/
lemma chunkEntries_append (m1 m2 : List (Nat × ChunkMapEntry)) (c : Nat) :
    chunkEntries (m1 ++ m2) c = chunkEntries m1 c ++ chunkEntries m2 c := by
  unfold chunkEntries
  rw [List.filter_append, List.map_append]

/-- Selecting chunk `c` from a keyed range of entries yields the single
entry for `c` when `c` lies in the range and nothing otherwise. -/
lemma chunkEntries_map_range (f : Nat → ChunkMapEntry) (c : Nat) :
    ∀ (n s : Nat),
      chunkEntries ((List.range' s n).map fun x => (x, f x)) c =
        if s ≤ c ∧ c < s + n then [f c] else [] := by
  intro n
  induction n with
  | zero =>
    intro s
    rw [if_neg (by omega)]
    rfl
  | succ n ih =>
    intro s
    rw [List.range'_succ, List.map_cons]
    unfold chunkEntries
    rw [List.filter_cons]
    by_cases hsc : s = c
    · subst hsc
      rw [if_pos (by simp), List.map_cons]
      have htail := ih (s + 1)
      unfold chunkEntries at htail
      rw [htail, if_neg (by omega), if_pos (by omega)]
    · rw [if_neg (by simp [hsc])]
      have htail := ih (s + 1)
      unfold chunkEntries at htail
      rw [htail]
      split_ifs <;> first | rfl | omega

/-- `chunkMap[c]` of a single file's entries, with range-membership
stated through the division-free bounds. -/
lemma chunkEntries_file (L j a l c : Nat) (hL : 0 < L) (hl : 0 < l) :
    chunkEntries (fileEntries L j a l) c =
      if c * L < a + l ∧ a < c * L + L then [mkEntryFor L j a l c] else [] := by
  unfold fileEntries
  rw [chunkEntries_map_range]
  have hcnt : a / L + ((a + l - 1) / L + 1 - a / L) = (a + l - 1) / L + 1 := by
    have hmono : a / L ≤ (a + l - 1) / L := Nat.div_le_div_right (by omega)
    omega
  have hdiv1 : a / L ≤ c ↔ a < c * L + L := by
    rw [← Nat.lt_succ_iff, Nat.div_lt_iff_lt_mul hL, Nat.succ_mul]
  have hdiv2 : c ≤ (a + l - 1) / L ↔ c * L < a + l := by
    rw [Nat.le_div_iff_mul_le hL]
    omega
  rw [hcnt]
  by_cases hov : c * L < a + l ∧ a < c * L + L
  · rw [if_pos ⟨hdiv1.mpr hov.2, Nat.lt_succ_iff.mpr (hdiv2.mpr hov.1)⟩, if_pos hov]
  · rw [if_neg (fun hc => hov ⟨hdiv2.mp (Nat.lt_succ_iff.mp hc.2), hdiv1.mp hc.1⟩),
      if_neg hov]

/-- Writing a list of targets leaves untargeted file indices alone. -/
lemma writeTargets_getD_notmem (buf : Bytes) :
    ∀ (ts : List ChunkMapEntry) (fd : List Bytes) (k : Nat),
      (∀ e ∈ ts, e.efile ≠ k) →
      (FSAChunkStore.writeTargets buf fd ts).getD k [] = fd.getD k [] := by
  intro ts
  induction ts with
  | nil => intro fd k _; rfl
  | cons e ts ih =>
    intro fd k hne
    unfold FSAChunkStore.writeTargets
    rw [ih _ k fun x hx => hne x (by simp [hx])]
    exact getD_set_ne _ _ _ _ (hne e (by simp))

/-- Writing a list of targets with strictly increasing file indices
writes each targeted file exactly once. -/
lemma writeTargets_getD_mem (buf : Bytes) :
    ∀ (ts : List ChunkMapEntry) (fd : List Bytes) (e : ChunkMapEntry),
      e ∈ ts → ts.Pairwise (fun x y => x.efile < y.efile) → e.efile < fd.length →
      (FSAChunkStore.writeTargets buf fd ts).getD e.efile []
        = writeAt (fd.getD e.efile []) e.eoffset
            ((buf.drop e.efrom).take (e.eto - e.efrom)) := by
  intro ts
  induction ts with
  | nil => intro fd e he; simp at he
  | cons g ts ih =>
    intro fd e he hpw hlt
    rcases List.mem_cons.mp he with rfl | he'
    · unfold FSAChunkStore.writeTargets
      have hnot : ∀ x ∈ ts, x.efile ≠ e.efile := by
        intro x hx
        have := (List.pairwise_cons.mp hpw).1 x hx
        omega
      rw [writeTargets_getD_notmem buf ts _ _ hnot]
      exact getD_set_self _ _ _ hlt
    · unfold FSAChunkStore.writeTargets
      have hgne : g.efile ≠ e.efile := by
        have := (List.pairwise_cons.mp hpw).1 e he'
        omega
      rw [ih _ e he' (List.pairwise_cons.mp hpw).2 (by rw [List.length_set]; exact hlt)]
      rw [getD_set_ne _ _ _ _ hgne]

/-- Reading back exactly the padded window of a positioned write into an
empty file returns the written data. -/
lemma blobSlice_pad (p : Nat) (d : Bytes) (stop : Int)
    (hstop : stop = (p : Int) + d.length) :
    blobSlice (writeAt [] p d) (p : Int) stop = d := by
  have hcontent : writeAt [] p d = List.replicate p 0 ++ d := by
    unfold writeAt
    simp
  unfold blobSlice
  rw [hcontent]
  have hsize : ((List.replicate p (0 : Nat) ++ d).length : Int) = (p : Int) + d.length := by
    simp
  simp only [hsize, hstop]
  rw [if_neg (by omega), if_neg (by omega)]
  have h1 : (min (p : Int) ((p : Int) + d.length)).toNat = p := by omega
  have h2 : (max (min ((p : Int) + d.length) ((p : Int) + d.length) - min (p : Int) ((p : Int) + d.length)) 0).toNat = d.length := by omega
  rw [h1, h2]
  have hdrop : (List.replicate p (0 : Nat) ++ d).drop p = d := by
    have hdl := List.drop_left (List.replicate p (0 : Nat)) d
    rwa [List.length_replicate] at hdl
  rw [hdrop]
  exact List.take_length d

/-- Tiling of a chunk by contiguous files: reading back, entry by entry,
the windows `[from, to)` of a buffer along `chunkMap[c]` reconstructs
exactly the part of the buffer that the files starting at offset `a`
cover within chunk `c`. -/
lemma tiling (L : Nat) (hL : 0 < L) (buf : Bytes) (hbuf : buf.length ≤ L) (c : Nat) :
    ∀ (fs : List FileRes) (a j : Nat), Contig a fs → (∀ f ∈ fs, 0 < f.flen) →
      ((chunkEntries (buildChunkMapAux L j fs) c).map
          (fun e => (buf.drop e.efrom).take (e.eto - e.efrom))).flatten
        = (buf.drop (a - c * L)).take
            (min L (a + (fs.map (·.flen)).sum - c * L) - (a - c * L)) := by
  intro fs
  induction fs with
  | nil =>
    intro a j _ _
    have hz : min L (a + (([] : List FileRes).map (·.flen)).sum - c * L) - (a - c * L) = 0 := by
      simp only [List.map_nil, List.sum_nil]
      omega
    rw [hz]
    simp [buildChunkMapAux, chunkEntries]
  | cons f rest ih =>
    intro a j hct hpos
    obtain ⟨hfo, hct'⟩ := hct
    have hflpos : 0 < f.flen := hpos f (by simp)
    simp only [buildChunkMapAux]
    rw [chunkEntries_append, List.map_append, List.flatten_append, hfo]
    rw [chunkEntries_file L j a f.flen c hL hflpos]
    rw [ih (a + f.flen) (j + 1) hct' fun g hg => hpos g (by simp [hg])]
    simp only [List.map_cons, List.sum_cons]
    by_cases hov : c * L < a + f.flen ∧ a < c * L + L
    · rw [if_pos hov]
      have hef : (mkEntryFor L j a f.flen c).efrom = a - c * L := by
        simp only [mkEntryFor]
        split_ifs <;> omega
      have het : (mkEntryFor L j a f.flen c).eto = min L (a + f.flen - c * L) := by
        simp only [mkEntryFor]
        split_ifs <;> omega
      simp only [List.map_cons, List.map_nil, List.flatten_cons, List.flatten_nil,
        List.append_nil, hef, het]
      by_cases hin : a + f.flen ≤ c * L + L
      · have key : min L (a + (f.flen + (rest.map (·.flen)).sum) - c * L) - (a - c * L)
            = (min L (a + f.flen - c * L) - (a - c * L))
              + (min L (a + f.flen + (rest.map (·.flen)).sum - c * L)
                  - (a + f.flen - c * L)) := by
          omega
        rw [key, List.take_add]
        congr 1
        rw [List.drop_drop]
        exact take_drop_congr buf _ _ _ _ (by omega) rfl
      · have htail : buf.drop (a + f.flen - c * L) = [] :=
          List.drop_eq_nil_of_le (by omega)
        rw [htail]
        simp only [List.take_nil, List.append_nil]
        exact take_drop_congr buf _ _ _ _ rfl (by omega)
    · rw [if_neg hov]
      simp only [List.map_nil, List.flatten_nil, List.nil_append]
      rcases (by omega : a + f.flen ≤ c * L ∨ c * L + L ≤ a) with hbefore | hafter
      · exact take_drop_congr buf _ _ _ _ (by omega) (by omega)
      · have h1 : buf.drop (a + f.flen - c * L) = [] := List.drop_eq_nil_of_le (by omega)
        have h2 : buf.drop (a - c * L) = [] := List.drop_eq_nil_of_le (by omega)
        rw [h1, h2]
        simp

/-- `chunkMap[c]` of a single file's entries in raw range form, with no
side conditions. -/
lemma chunkEntries_fileEntries_eq (L j a l c : Nat) :
    chunkEntries (fileEntries L j a l) c =
      if a / L ≤ c ∧ c < a / L + ((a + l - 1) / L + 1 - a / L)
      then [mkEntryFor L j a l c] else [] := by
  unfold fileEntries
  exact chunkEntries_map_range _ _ _ _

/-- Entries contributed by files with list indices from `j` on have file
index at least `j`. -/
lemma chunkEntries_efile_lb (L c : Nat) :
    ∀ (fs : List FileRes) (j : Nat),
      ∀ e ∈ chunkEntries (buildChunkMapAux L j fs) c, j ≤ e.efile := by
  intro fs
  induction fs with
  | nil =>
    intro j e he
    simp [buildChunkMapAux, chunkEntries] at he
  | cons f rest ih =>
    intro j e he
    simp only [buildChunkMapAux] at he
    rw [chunkEntries_append, chunkEntries_fileEntries_eq] at he
    rcases List.mem_append.mp he with hh | ht
    · split_ifs at hh
      · simp only [List.mem_singleton] at hh
        subst hh
        exact le_refl j
      · simp at hh
    · exact le_trans (by omega) (ih (j + 1) e ht)

/-- The entry list of one chunk has strictly increasing file indices:
each file contributes at most one entry per chunk, in file-list order. -/
lemma chunkEntries_pairwise (L c : Nat) :
    ∀ (fs : List FileRes) (j : Nat),
      (chunkEntries (buildChunkMapAux L j fs) c).Pairwise fun x y => x.efile < y.efile := by
  intro fs
  induction fs with
  | nil =>
    intro j
    simp [buildChunkMapAux, chunkEntries]
  | cons f rest ih =>
    intro j
    simp only [buildChunkMapAux]
    rw [chunkEntries_append]
    apply List.pairwise_append.mpr
    refine ⟨?_, ih (j + 1), ?_⟩
    · rw [chunkEntries_fileEntries_eq]
      split_ifs <;> simp
    · intro x hx y hy
      rw [chunkEntries_fileEntries_eq] at hx
      have hxj : x.efile = j := by
        split_ifs at hx
        · simp only [List.mem_singleton] at hx
          subst hx
          rfl
        · simp at hx
      have hyj : j + 1 ≤ y.efile := chunkEntries_efile_lb L c rest (j + 1) y hy
      omega

/-- Characterization of every `chunkMap[c]` entry of a contiguous file
layout: it is the entry of some file `[b, b + l)` overlapping chunk `c`,
with its bounds. -/
lemma chunkEntries_mem (L : Nat) (hL : 0 < L) (c : Nat) :
    ∀ (fs : List FileRes) (a j : Nat), Contig a fs → (∀ f ∈ fs, 0 < f.flen) →
      ∀ e ∈ chunkEntries (buildChunkMapAux L j fs) c,
        ∃ b l, e = mkEntryFor L e.efile b l c ∧ c * L < b + l ∧ b < c * L + L ∧
          a ≤ b ∧ b + l ≤ a + (fs.map (·.flen)).sum ∧ 0 < l ∧
          e.efile < j + fs.length := by
  intro fs
  induction fs with
  | nil =>
    intro a j _ _ e he
    simp [buildChunkMapAux, chunkEntries] at he
  | cons f rest ih =>
    intro a j hct hpos e he
    obtain ⟨hfo, hct'⟩ := hct
    have hflpos : 0 < f.flen := hpos f (by simp)
    simp only [buildChunkMapAux] at he
    rw [chunkEntries_append, hfo, chunkEntries_file L j a f.flen c hL hflpos] at he
    rcases List.mem_append.mp he with hh | ht
    · have hhe : e = mkEntryFor L j a f.flen c ∧ c * L < a + f.flen ∧ a < c * L + L := by
        by_cases hov : c * L < a + f.flen ∧ a < c * L + L
        · rw [if_pos hov] at hh
          simp only [List.mem_singleton] at hh
          exact ⟨hh, hov.1, hov.2⟩
        · rw [if_neg hov] at hh
          simp at hh
      obtain ⟨hee, hov1, hov2⟩ := hhe
      have hef : e.efile = j := by rw [hee]; simp [mkEntryFor]
      refine ⟨a, f.flen, ?_, hov1, hov2, le_refl a, ?_, hflpos, ?_⟩
      · rw [hef, hee]
      · simp only [List.map_cons, List.sum_cons]
        omega
      · simp only [List.length_cons]
        omega
    · obtain ⟨b, l, h1, h2, h3, h4, h5, h6, h7⟩ :=
        ih (a + f.flen) (j + 1) hct' (fun g hg => hpos g (by simp [hg])) e ht
      refine ⟨b, l, h1, h2, h3, by omega, ?_, h6, ?_⟩
      · simp only [List.map_cons, List.sum_cons]
        omega
      · simp only [List.length_cons]
        omega

/-- For a chunk strictly inside a finite store, the expected length is
exactly the part of the total length falling into that chunk. -/
lemma expectedLen_min (L T i : Nat) (hL : 0 < L) (hi : i * L < T) :
    expectedLen L (some T) i = min L (T - i * L) := by
  obtain ⟨q, r, hqr, hrlt⟩ : ∃ q r, T = q * L + r ∧ r < L :=
    ⟨T / L, T % L, by
      have h := Nat.div_add_mod T L
      rw [Nat.mul_comm] at h
      omega, Nat.mod_lt _ hL⟩
  have hmod : T % L = r := by
    rw [hqr, Nat.add_comm, Nat.add_mul_mod_self_right]
    exact Nat.mod_eq_of_lt hrlt
  have hcast : ((T : Int) + L - 1) / L = (((T + L - 1) / L : Nat) : Int) := by
    rw [Int.ofNat_ediv]
    congr 1
    omega
  simp only [expectedLen, hcast, hmod]
  rcases Nat.eq_zero_or_pos r with hr | hr
  · subst hr
    have hdiv : (T + L - 1) / L = q := by
      have hT : T + L - 1 = (L - 1) + q * L := by omega
      rw [hT, Nat.add_mul_div_right _ _ hL, Nat.div_eq_of_lt (by omega)]
      omega
    rw [hdiv, if_pos rfl, ite_self]
    have hlt : i * L < q * L := by omega
    have hlt' : i < q := lt_of_mul_lt_mul_right hlt (Nat.zero_le L)
    have hmul : (i + 1) * L ≤ q * L := Nat.mul_le_mul_right L hlt'
    rw [Nat.succ_mul] at hmul
    omega
  · have hdiv : (T + L - 1) / L = q + 1 := by
      have hT : T + L - 1 = (r - 1) + (q + 1) * L := by rw [Nat.succ_mul]; omega
      rw [hT, Nat.add_mul_div_right _ _ hL, Nat.div_eq_of_lt (by omega)]
      omega
    rw [hdiv, if_neg (by omega : ¬ r = 0)]
    by_cases hiq : i = q
    · subst hiq
      rw [if_pos (by push_cast; omega)]
      omega
    · have hle : ¬ (q + 1 ≤ i) := by
        intro hcon
        have hmul : (q + 1) * L ≤ i * L := Nat.mul_le_mul_right L hcon
        rw [Nat.succ_mul] at hmul
        omega
      rw [if_neg (by push_cast; omega)]
      have hmul : (i + 1) * L ≤ q * L := Nat.mul_le_mul_right L (by omega)
      rw [Nat.succ_mul] at hmul
      omega

/-- A parameterless `get` on a file-backed store with no cached chunk
file reads through the reconstruction path: the `chunkMap[index]`
entries (all of which overlap the full-chunk window, unclipped) are
mapped to snapshot reads and concatenated. -/
lemma getFn_reconstruct (s : FSAChunkStore) (i : Nat) (effLen : Nat)
    (hopen : s.closed = false)
    (heff : (if s.lastChunkIndex = some (i : Int) then s.lastChunkLength.getD 0
      else s.chunkLength) = effLen)
    (heffpos : 0 < effLen)
    (hfiles : s.files.isNone = false)
    (hnochunk : s.lookupChunk i = none)
    (hne : chunkEntries s.chunkMap i ≠ [])
    (hkeep : ∀ e ∈ chunkEntries s.chunkMap i, 0 < e.eto ∧ e.efrom < effLen ∧ e.eto ≤ effLen)
    (hflat : ((chunkEntries s.chunkMap i).map fun e =>
        blobSlice (s.fileBlobs.getD e.efile []) e.eoffset
          ((e.eoffset : Int) + e.eto - e.efrom)).flatten ≠ []) :
    (s.getFn i ⟨none, none⟩).1 = .ok (((chunkEntries s.chunkMap i).map fun e =>
        blobSlice (s.fileBlobs.getD e.efile []) e.eoffset
          ((e.eoffset : Int) + e.eto - e.efrom)).flatten) := by
  unfold FSAChunkStore.getFn
  rw [hopen]
  simp only [Bool.false_eq_true, if_false, Option.getD_none, heff, jsLenTruthy]
  rw [if_neg (by simp)]
  rw [if_neg (by omega : ¬ (0 : Int) = ((effLen : Nat) : Int))]
  rw [if_neg (by rw [hfiles, hnochunk]; simp)]
  rw [if_neg hne]
  have hfilter : (chunkEntries s.chunkMap i).filter
      (fun e => decide ((0 : Int) < (e.eto : Int)) && decide ((e.efrom : Int) < ((effLen : Nat) : Int)))
      = chunkEntries s.chunkMap i := by
    apply List.filter_eq_self.mpr
    intro e he
    obtain ⟨h1, h2, h3⟩ := hkeep e he
    simp only [Bool.and_eq_true, decide_eq_true_eq]
    exact ⟨by exact_mod_cast h1, by exact_mod_cast h2⟩
  rw [hfilter, if_neg hne]
  have hmap : (chunkEntries s.chunkMap i).map (fun e =>
      blobSlice (s.fileBlobs.getD e.efile [])
        (if (e.efrom : Int) < 0 then (e.eoffset : Int) + ((0 : Int) - (e.efrom : Int))
          else (e.eoffset : Int))
        ((if (e.efrom : Int) < 0 then (e.eoffset : Int) + ((0 : Int) - (e.efrom : Int))
            else (e.eoffset : Int))
          + (if (e.eto : Int) > ((effLen : Nat) : Int) then ((effLen : Nat) : Int) else (e.eto : Int))
          - (if (e.efrom : Int) < 0 then (0 : Int) else (e.efrom : Int))))
      = (chunkEntries s.chunkMap i).map (fun e =>
          blobSlice (s.fileBlobs.getD e.efile []) e.eoffset
            ((e.eoffset : Int) + e.eto - e.efrom)) := by
    apply List.map_congr_left
    intro e he
    obtain ⟨h1, h2, h3⟩ := hkeep e he
    rw [if_neg (by omega : ¬ (e.efrom : Int) < 0),
      if_neg (by exact_mod_cast not_lt.mpr h3 : ¬ (e.eto : Int) > ((effLen : Nat) : Int)),
      if_neg (by omega : ¬ (e.efrom : Int) < 0)]
  rw [hmap]
  rw [if_neg (fun hc => hflat (List.length_eq_zero.mp hc))]

/-- The state after a successful `put` on a file-backed store: the chunk
cache gains the buffer and each target file receives its window. -/
lemma putFn_files_state (s : FSAChunkStore) (i : Nat) (buf : Bytes)
    (hopen : s.closed = false)
    (h1 : ¬(s.lastChunkIndex = some (i : Int) ∧ some buf.length ≠ s.lastChunkLength))
    (h2 : ¬(¬ s.lastChunkIndex = some (i : Int) ∧ buf.length ≠ s.chunkLength))
    (hf : s.files.isSome = true)
    (hne : chunkEntries s.chunkMap i ≠ []) :
    (s.putFn i buf).2 = { s with
      chunks := (i, buf) :: s.chunks
      fileData := FSAChunkStore.writeTargets buf s.fileData (chunkEntries s.chunkMap i) } := by
  unfold FSAChunkStore.putFn
  rw [hopen]
  simp only [Bool.false_eq_true, if_false, if_neg h1, if_neg h2]
  cases hfs : s.files with
  | none =>
    rw [hfs] at hf
    simp at hf
  | some fs => simp [hne]

/-- The state after `cleanup()` on an open file-backed store: the chunk
cache is emptied, the snapshots are refreshed, the cache directory is
recreated. -/
lemma cleanupFn_state (s : FSAChunkStore) (hopen : s.closed = false)
    (hf : s.files.isSome = true) :
    s.cleanupFn = { s with
      chunks := []
      fileBlobs := s.fileData
      cacheDirPresent := true } := by
  unfold FSAChunkStore.cleanupFn
  rw [if_neg]
  push_neg
  refine ⟨by rw [hopen]; simp, ?_⟩
  cases hfs : s.files with
  | none => rw [hfs] at hf; simp at hf
  | some fs => simp

/-- Well-formedness depends only on the four length fields. -/
lemma wfb_eq_of_fields {s t : FSAChunkStore} (h1 : t.chunkLength = s.chunkLength)
    (h2 : t.totalLength = s.totalLength) (h3 : t.lastChunkLength = s.lastChunkLength)
    (h4 : t.lastChunkIndex = s.lastChunkIndex) : t.wfb = s.wfb := by
  unfold FSAChunkStore.wfb
  rw [h1, h2, h3, h4]

/-- Unpacking a successful file-mode construction. -/
lemma mkStore_files_ok {L : Nat} {olen : Option Nat} {fl : List FileIn} {s : FSAChunkStore}
    (hmk : mkStore (some L) ⟨true, olen, some fl⟩ = .ok s) :
    ∃ fs, resolveFiles 0 fl = .ok fs ∧ L ≠ 0 ∧
      s = { chunkLength := L
            totalLength := some ((fs.map (·.flen)).sum)
            lastChunkLength := some (if (fs.map (·.flen)).sum % L = 0 then L
              else (fs.map (·.flen)).sum % L)
            lastChunkIndex := some ((((fs.map (·.flen)).sum : Int) + L - 1) / L - 1)
            files := some fs
            chunkMap := buildChunkMap L fs
            chunks := []
            fileData := List.replicate fs.length []
            fileBlobs := List.replicate fs.length []
            closing := false
            closed := false
            storageDirPresent := true
            cacheDirPresent := true } := by
  by_cases hL : L = 0
  · simp [mkStore, hL] at hmk
  · rcases hres : resolveFiles 0 fl with e | fs
    · simp [mkStore, hL, hres] at hmk
    · refine ⟨fs, rfl, hL, ?_⟩
      simp only [mkStore, hres] at hmk
      rw [if_neg hL] at hmk
      by_cases hopt : olen ≠ none ∧ olen ≠ some ((fs.map (·.flen)).sum)
      · rw [if_pos hopt] at hmk
        simp at hmk
      · rw [if_neg hopt] at hmk
        simp only [Except.ok.injEq] at hmk
        rw [← hmk]
        have hc : (((fs.map (fun x => x.flen)).sum : Nat) : Int)
            = (fs.map (fun x => (x.flen : Int))).sum := by
          push_cast
          rw [List.map_map]
          rfl
        rw [hc]

/-- C3: on a freshly constructed store with contiguous logical files of
positive lengths, `put(i, buf)` followed by `cleanup()` followed by
`get(i)` still returns `buf`, now reconstructed from the logical files
by selecting the `chunkMap[i]` entries, clipping them to the requested
window (a no-op for the full-chunk window), reading each file sub-range
from its refreshed snapshot and concatenating in `chunkMap` order; and
chunks put after `cleanup()` are likewise retrievable. -/
theorem c3_cleanup_durability (L : Nat) (olen : Option Nat) (fl : List FileIn)
    (s : FSAChunkStore) (i : Nat) (buf : Bytes) (T : Nat)
    (hmk : mkStore (some L) ⟨true, olen, some fl⟩ = .ok s)
    (hofs : ∀ f ∈ fl, f.foffset = none)
    (hlenpos : ∀ f ∈ fl, 0 < f.flen.getD 0)
    (hT : s.totalLength = some T)
    (hi : i * L < T)
    (hlen : buf.length = expectedLen s.chunkLength s.totalLength i) :
    ((((s.putFn i buf).2).cleanupFn).getFn i ⟨none, none⟩).1 = .ok buf ∧
    ∀ (j : Nat) (buf2 : Bytes),
      buf2.length = expectedLen s.chunkLength s.totalLength j →
      (((((s.putFn i buf).2).cleanupFn).putFn j buf2).2.getFn j ⟨none, none⟩).1
        = .ok buf2 := by
  obtain ⟨fs, hres, hL0, hs⟩ := mkStore_files_ok hmk
  have hL : 0 < L := Nat.pos_of_ne_zero hL0
  obtain ⟨hct, hpos⟩ := resolveFiles_contig fl 0 fs hofs hlenpos hres
  have hCL : s.chunkLength = L := by rw [hs]
  have hTL : s.totalLength = some ((fs.map (·.flen)).sum) := by rw [hs]
  have hcl : s.closed = false := by rw [hs]
  have hcg : s.closing = false := by rw [hs]
  have hfi : s.files = some fs := by rw [hs]
  have hcm : s.chunkMap = buildChunkMap L fs := by rw [hs]
  have hch : s.chunks = [] := by rw [hs]
  have hfd : s.fileData = List.replicate fs.length [] := by rw [hs]
  have hwf : s.wfb = true := by
    rw [hs]
    simp only [FSAChunkStore.wfb, Bool.and_eq_true, decide_eq_true_eq]
    refine ⟨hL, trivial, ?_⟩
    have hmc : ((((fs.map (fun x => x.flen)).sum : Nat)) : Int)
        = (fs.map (fun x => (x.flen : Int))).sum := by
      rw [Nat.cast_list_sum, List.map_map]
      exact congrArg List.sum (List.map_congr_left fun a _ => rfl)
    rw [hmc]
  have hTT : (fs.map (·.flen)).sum = T := by
    rw [hTL] at hT
    injection hT
  subst hTT
  have hlen' : buf.length = expectedLen L (some ((fs.map (·.flen)).sum)) i := by
    rw [hlen, hCL, hTL]
  have hmin := expectedLen_min L ((fs.map (·.flen)).sum) i hL hi
  have hbufmin : buf.length = min L ((fs.map (·.flen)).sum - i * L) := hlen'.trans hmin
  have hbufle : buf.length ≤ L := by omega
  have hbpos : 0 < buf.length := by omega
  obtain ⟨h1, h2⟩ := FSAChunkStore.put_checks_pass s i buf hwf hlen
  have htile := tiling L hL buf hbufle i fs 0 0 hct hpos
  have hne : chunkEntries (buildChunkMap L fs) i ≠ [] := by
    intro hemp
    have hemp' : chunkEntries (buildChunkMapAux L 0 fs) i = [] := hemp
    rw [hemp'] at htile
    have hlength := congrArg List.length htile
    simp only [List.map_nil, List.flatten_nil, List.length_nil, List.length_take,
      List.length_drop] at hlength
    omega
  have hpw : (chunkEntries (buildChunkMap L fs) i).Pairwise
      (fun x y => x.efile < y.efile) := chunkEntries_pairwise L i fs 0
  have hfacts : ∀ e ∈ chunkEntries (buildChunkMap L fs) i,
      e.efrom ≤ e.eto ∧ 0 < e.eto ∧ e.efrom < buf.length ∧ e.eto ≤ buf.length ∧
        e.efile < fs.length := by
    intro e he
    obtain ⟨b, l, hee, hb1, hb2, hb3, hb4, hl, hfile⟩ :=
      chunkEntries_mem L hL i fs 0 0 hct hpos e he
    have hfe : e.efile < fs.length := by omega
    have hfrom : e.efrom = if b < i * L then 0 else b - i * L := by
      rw [hee]
      simp [mkEntryFor]
    have hto : e.eto = if b + l > i * L + L then L else b + l - i * L := by
      rw [hee]
      simp [mkEntryFor]
    refine ⟨?_, ?_, ?_, ?_, hfe⟩
    · rw [hfrom, hto]
      split_ifs <;> omega
    · rw [hto]
      split_ifs <;> omega
    · rw [hfrom, hbufmin]
      split_ifs <;> omega
    · rw [hto, hbufmin]
      split_ifs <;> omega
  have hW : ∀ e ∈ chunkEntries (buildChunkMap L fs) i,
      blobSlice ((FSAChunkStore.writeTargets buf (List.replicate fs.length [])
          (chunkEntries (buildChunkMap L fs) i)).getD e.efile [])
        (e.eoffset : Int) ((e.eoffset : Int) + e.eto - e.efrom)
        = (buf.drop e.efrom).take (e.eto - e.efrom) := by
    intro e he
    obtain ⟨hk0, hk1, hk2, hk3, hk5⟩ := hfacts e he
    have hw := writeTargets_getD_mem buf (chunkEntries (buildChunkMap L fs) i)
      (List.replicate fs.length []) e he hpw (by rw [List.length_replicate]; exact hk5)
    rw [hw, getD_replicate _ _ hk5]
    have hdl : ((buf.drop e.efrom).take (e.eto - e.efrom)).length = e.eto - e.efrom := by
      simp only [List.length_take, List.length_drop]
      omega
    exact blobSlice_pad e.eoffset _ _ (by rw [hdl]; omega)
  have hslices : ((chunkEntries (buildChunkMap L fs) i).map
      (fun e => (buf.drop e.efrom).take (e.eto - e.efrom))).flatten = buf := by
    have htile' : ((chunkEntries (buildChunkMap L fs) i).map
        (fun e => (buf.drop e.efrom).take (e.eto - e.efrom))).flatten
        = (buf.drop (0 - i * L)).take
            (min L (0 + (fs.map (·.flen)).sum - i * L) - (0 - i * L)) := htile
    rw [htile']
    have h0 : 0 - i * L = 0 := by omega
    rw [h0, List.drop_zero]
    have hamt : min L (0 + (fs.map (·.flen)).sum - i * L) - 0 = buf.length := by omega
    rw [hamt, List.take_length]
  have hs1 := putFn_files_state s i buf hcl h1 h2 (by rw [hfi]; rfl) (by rw [hcm]; exact hne)
  have hcl2 : ({ s with
      chunks := (i, buf) :: s.chunks
      fileData := FSAChunkStore.writeTargets buf s.fileData (chunkEntries s.chunkMap i) }
        : FSAChunkStore).closed = false := hcl
  have hfsome2 : ({ s with
      chunks := (i, buf) :: s.chunks
      fileData := FSAChunkStore.writeTargets buf s.fileData (chunkEntries s.chunkMap i) }
        : FSAChunkStore).files.isSome = true := by
    show s.files.isSome = true
    rw [hfi]
    rfl
  have hclean := cleanupFn_state { s with
      chunks := (i, buf) :: s.chunks
      fileData := FSAChunkStore.writeTargets buf s.fileData (chunkEntries s.chunkMap i) }
    hcl2 hfsome2
  obtain ⟨s2, hs2, hf1, hf2, hf3, hf4, hf5, hf6, hf7, hf8, hf9⟩ :
      ∃ s2, ((s.putFn i buf).2).cleanupFn = s2 ∧
        s2.chunkLength = s.chunkLength ∧ s2.totalLength = s.totalLength ∧
        s2.lastChunkLength = s.lastChunkLength ∧ s2.lastChunkIndex = s.lastChunkIndex ∧
        s2.files = s.files ∧ s2.chunkMap = s.chunkMap ∧ s2.chunks = [] ∧
        s2.fileBlobs = FSAChunkStore.writeTargets buf s.fileData (chunkEntries s.chunkMap i) ∧
        s2.closed = false := by
    refine ⟨((s.putFn i buf).2).cleanupFn, rfl, ?_, ?_, ?_, ?_, ?_, ?_, ?_, ?_, ?_⟩
    all_goals rw [hs1, hclean]
    all_goals first | rfl | exact hcl
  rw [hs2]
  have hwf2 : s2.wfb = true := (wfb_eq_of_fields hf1 hf2 hf3 hf4).trans hwf
  have hlk2 : s2.lookupChunk i = none := by
    unfold FSAChunkStore.lookupChunk
    rw [hf7]
    rfl
  constructor
  · have hblobeq : ((chunkEntries s2.chunkMap i).map fun e =>
        blobSlice (s2.fileBlobs.getD e.efile []) (e.eoffset : Int)
          ((e.eoffset : Int) + e.eto - e.efrom)).flatten = buf := by
      rw [hf6, hcm, hf8, hfd, hcm]
      rw [List.map_congr_left hW]
      exact hslices
    have hget := getFn_reconstruct s2 i buf.length hf9
      (by rw [hf4, hf3, hf1, FSAChunkStore.effLen_eq hwf i]; exact hlen.symm)
      hbpos
      (by rw [hf5, hfi]; rfl)
      hlk2
      (by rw [hf6, hcm]; exact hne)
      (by
        rw [hf6, hcm]
        intro e he
        obtain ⟨hk0, hk1, hk2, hk3, hk5⟩ := hfacts e he
        exact ⟨hk1, hk2, hk3⟩)
      (by rw [hblobeq]; exact List.ne_nil_of_length_pos hbpos)
    rw [hget, hblobeq]
  · intro j buf2 hlen2
    refine put_get_roundtrip s2 j buf2 hwf2 hf9 ?_
    rw [hf1, hf2]
    exact hlen2

/-- Witness for C3 at the two-file store: a written chunk survives
cleanup via file reconstruction, and a chunk written after cleanup is
retrievable as well. -/
theorem c3_cleanup_durability_witness :
    mkStore (some 10) ⟨true, none,
        some [⟨some "a", some 5, none⟩, ⟨some "b", some 5, none⟩]⟩ = .ok SFiles ∧
    SFiles.totalLength = some 10 ∧ 0 * 10 < 10 ∧
    ([1, 2, 3, 4, 5, 6, 7, 8, 9, 10] : Bytes).length
      = expectedLen SFiles.chunkLength SFiles.totalLength 0 ∧
    ((((SFiles.putFn 0 [1, 2, 3, 4, 5, 6, 7, 8, 9, 10]).2).cleanupFn).getFn 0
        ⟨none, none⟩).1 = .ok [1, 2, 3, 4, 5, 6, 7, 8, 9, 10] ∧
    (((((SFiles.putFn 0 [1, 2, 3, 4, 5, 6, 7, 8, 9, 10]).2).cleanupFn).putFn 0
        [11, 12, 13, 14, 15, 16, 17, 18, 19, 20]).2.getFn 0 ⟨none, none⟩).1
      = .ok [11, 12, 13, 14, 15, 16, 17, 18, 19, 20] :=
  ⟨by decide, by decide, by decide, by decide,
    (c3_cleanup_durability 10 none [⟨some "a", some 5, none⟩, ⟨some "b", some 5, none⟩]
      SFiles 0 [1, 2, 3, 4, 5, 6, 7, 8, 9, 10] 10 (by decide) (by decide) (by decide)
      (by decide) (by decide) (by decide)).1,
    (c3_cleanup_durability 10 none [⟨some "a", some 5, none⟩, ⟨some "b", some 5, none⟩]
      SFiles 0 [1, 2, 3, 4, 5, 6, 7, 8, 9, 10] 10 (by decide) (by decide) (by decide)
      (by decide) (by decide) (by decide)).2 0
      [11, 12, 13, 14, 15, 16, 17, 18, 19, 20] (by decide)⟩
